import Mathlib

/-
Shallow embedding of the heuristic source-text symbol-usage matcher of
`opencpn_plugin_api_analyzer/analyzer.py` (`PluginAnalyzer._analyze_file_content`
and `PluginAnalyzer._analyze_plugin_repo`).

File texts are modelled as `List Char`.  The regular expressions the code
builds are all alternations/concatenations of `re.escape`d literals together
with `\b`, `\s*`, `\s+`, `(?:::|\.)`, `(?:\*|\&)?`, `\w+` and `.*` (DOTALL),
so each one is embedded as an explicit character-scanning function with the
same matching semantics.  Character classes (`\w`, `\s`, `str.strip`,
`str.splitlines`) are modelled on their ASCII fragment.
-/

namespace OcpnAnalyzer

/-- Python regex `\w` (ASCII fragment): letters, digits, underscore. -/
def isWordChar (c : Char) : Bool :=
  c.isAlphanum || c == '_'

/-- Python regex `\s` (ASCII fragment): the whitespace characters. -/
def isSpaceChar (c : Char) : Bool :=
  c == ' ' || c == '\t' || c == '\n' || c == '\r' || c == '\x0b' || c == '\x0c'

/-- Whether the character at index `i` of `text` exists and is a word character. -/
def charAtIsWord (text : List Char) (i : Nat) : Bool :=
  match text.drop i with
  | [] => false
  | c :: _ => isWordChar c

/-- Regex `\b` at position `i`: word-ness changes between `i - 1` and `i`
(out of range counts as non-word). -/
def boundaryAt (text : List Char) (i : Nat) : Bool :=
  (if i = 0 then false else charAtIsWord text (i - 1)) != charAtIsWord text i

/-- The literal `pat` occurs in `text` starting at index `i`. -/
def matchesAt (pat text : List Char) (i : Nat) : Bool :=
  (text.drop i).take pat.length == pat

/-- Regex `\b<pat>\b` (with `pat` an escaped literal) matches at position `i`. -/
def wwMatchAt (pat text : List Char) (i : Nat) : Bool :=
  matchesAt pat text i && boundaryAt text i && boundaryAt text (i + pat.length)

/-- `re.search(r"\b<pat>\b", text)` succeeds. -/
def wwSearch (pat text : List Char) : Bool :=
  (List.range (text.length + 1)).any (wwMatchAt pat text)

/-- One step list of `re.findall(r"\b(?:n1|n2|...)\b", text)`: the scan tries
positions left to right; at each position the alternation tries the names in
pattern order; after a match the scan resumes past the matched text
(or one character further on an empty match).  `fuel` bounds the recursion;
`findallAlt` supplies enough fuel for the whole text. -/
def findallGo (names : List (List Char)) (text : List Char) :
    Nat → Nat → List (List Char)
  | 0, _ => []
  | fuel + 1, i =>
    if text.length < i then []
    else
      match names.find? (fun n => wwMatchAt n text i) with
      | some n => n :: findallGo names text fuel (i + max n.length 1)
      | none => findallGo names text fuel (i + 1)

/-- `re.findall` of the whole-word alternation of `names` over `text`. -/
def findallAlt (names : List (List Char)) (text : List Char) : List (List Char) :=
  findallGo names text (text.length + 1) 0

/-- Python `s.split("::")`: greedy left-to-right split on the two-character
separator. -/
def splitScope : List Char → List (List Char)
  | [] => [[]]
  | ':' :: ':' :: rest => [] :: splitScope rest
  | c :: rest =>
    match splitScope rest with
    | seg :: segs => (c :: seg) :: segs
    | [] => [[c]]

/-- Python `s.split("::")[-1]` — the short name. -/
def lastSeg (s : List Char) : List Char :=
  match (splitScope s).reverse with
  | seg :: _ => seg
  | [] => []

/-- Python `s.split("::")[-2]` — the parent scope segment (only used by the
code when `"::" in s`, so the split has at least two segments). -/
def parentSeg (s : List Char) : List Char :=
  match (splitScope s).reverse with
  | _ :: p :: _ => p
  | _ => []

/-- Python `"::" in s`. -/
def hasScope : List Char → Bool
  | ':' :: ':' :: _ => true
  | _ :: rest => hasScope rest
  | [] => false

/-- Insert into a length-descending list, after all strictly longer entries
and before equal-length ones (stability of Python's `list.sort`). -/
def insertByLen (s : List Char) : List (List Char) → List (List Char)
  | [] => [s]
  | t :: ts => if t.length ≤ s.length then s :: t :: ts else t :: insertByLen s ts

/-- Python `symbol_names.sort(key=len, reverse=True)`: stable sort by length,
descending. -/
def sortByLenDesc (l : List (List Char)) : List (List Char) :=
  l.foldr insertByLen []

/-- Python `for i in range(0, len(l), cs): chunk = l[i : i + cs]`.  `fuel`
bounds the recursion (the code always uses a positive chunk size). -/
def chunksOfGo (cs : Nat) : Nat → List (List Char) → List (List (List Char))
  | _, [] => []
  | 0, _ :: _ => []
  | fuel + 1, x :: xs => ((x :: xs).take cs) :: chunksOfGo cs fuel ((x :: xs).drop cs)

/-- The chunk partition of `l` with chunk size `cs`. -/
def chunksOf (cs : Nat) (l : List (List Char)) : List (List (List Char)) :=
  chunksOfGo cs l.length l

/-! ### Prefilter (first pass of `_analyze_file_content`) -/

/-- An API symbol catalog entry: `(qualified name, clang cursor-kind string)`.
Models the `Dict[str, ApiSymbol]` of `analyzer.py` restricted to the fields
the matcher reads (`symbol.kind`; the name doubles as the dict key). -/
abbrev Catalog := List (String × String)

/-- The catalog's qualified names (`list(api_symbols.keys())`). -/
def catalogNames (catalog : Catalog) : List (List Char) :=
  catalog.map (fun p => p.1.toList)

/-- Python `symbols_to_check.add s` on a set modelled as a duplicate-free
list (first-added order). -/
def addCandidate (acc : List (List Char)) (s : List Char) : List (List Char) :=
  if s ∈ acc then acc else acc ++ [s]

/-- The inner `for symbol in chunk: if symbol.split("::")[-1] == match: add`
loop of the prefilter, for one matched string `m`. -/
def addMatchBack (chunk : List (List Char)) (m : List Char)
    (acc : List (List Char)) : List (List Char) :=
  chunk.foldl (fun acc s => if lastSeg s == m then addCandidate acc s else acc) acc

/-- One chunk of the prefilter: run the whole-word alternation of the chunk's
short names over the raw text and map every matched string back to the
chunk's symbols sharing that short name. -/
def chunkCandidates (chunk : List (List Char)) (text : List Char)
    (acc : List (List Char)) : List (List Char) :=
  (findallAlt (chunk.map lastSeg) text).foldl
    (fun acc m => addMatchBack chunk m acc) acc

/-- The prefilter's candidate set (`symbols_to_check`): sort the qualified
names by length descending, partition into chunks of size `cs` (100 in the
code) and accumulate each chunk's matched-back symbols. -/
def prefilterCandidates (cs : Nat) (names : List (List Char))
    (text : List Char) : List (List Char) :=
  (chunksOf cs (sortByLenDesc names)).foldl
    (fun acc chunk => chunkCandidates chunk text acc) []

/-! ### Quote/comment-aware line scanner (second pass, occurrence check) -/

/-- A character terminating a physical line for Python `str.splitlines`. -/
def isLineBreakChar (c : Char) : Bool :=
  c == '\n' || c == '\r' || c == '\x0b' || c == '\x0c' ||
  c == '\x1c' || c == '\x1d' || c == '\x1e' || c == '\x85' ||
  c == '\u2028' || c == '\u2029'

/-- Python `content.splitlines()` (`\r\n` counts as a single break; no
trailing empty line). -/
def splitLines : List Char → List (List Char)
  | [] => []
  | '\r' :: '\n' :: rest => [] :: splitLines rest
  | c :: rest =>
    if isLineBreakChar c then [] :: splitLines rest
    else
      match splitLines rest with
      | l :: ls => (c :: l) :: ls
      | [] => [[c]]

/-- Python `line.strip()` (ASCII whitespace). -/
def pyStrip (l : List Char) : List Char :=
  ((l.dropWhile isSpaceChar).reverse.dropWhile isSpaceChar).reverse

/-- `line.strip().startswith("//")`. -/
def isCommentLine (line : List Char) : Bool :=
  matchesAt ['/', '/'] (pyStrip line) 0

/-- The character-indexed quote-splitting loop of `_analyze_file_content`:
walk the line toggling `in_quote` at every `"` not immediately preceded by
`\`, collecting the unquoted spans.  `rest` is the unread tail, `i` its
start index, `prev` the previous character. -/
def linePartsGo (line : List Char) :
    List Char → Nat → Option Char → Bool → Nat → List (List Char) →
    List (List Char)
  | [], _, _, inQ, startIdx, acc =>
    if !inQ && decide (startIdx < line.length)
    then acc ++ [line.drop startIdx] else acc
  | c :: rest, i, prev, inQ, startIdx, acc =>
    if c == '"' && prev != some '\\' then
      if inQ then linePartsGo line rest (i + 1) (some c) false (i + 1) acc
      else
        linePartsGo line rest (i + 1) (some c) true (i + 1)
          (if startIdx < i then acc ++ [(line.drop startIdx).take (i - startIdx)]
           else acc)
    else linePartsGo line rest (i + 1) (some c) inQ startIdx acc

/-- The unquoted spans (`line_parts`) of one line. -/
def lineParts (line : List Char) : List (List Char) :=
  linePartsGo line line 0 none false 0 []

/-- The scanner's verdict for one candidate: some non-comment line has a
whole-word occurrence of the short name inside an unquoted span. -/
def scanFound (shrt text : List Char) : Bool :=
  (splitLines text).any fun line =>
    !isCommentLine line && (lineParts line).any (fun part => wwSearch shrt part)

/-! ### Kind-specific disambiguator (second pass, acceptance rules) -/

/-- Regex `\s*\(` anchored at the start of `rest`: skip the (necessarily
maximal) space run, then require `(`. -/
def afterSpacesIsParen : List Char → Bool
  | [] => false
  | c :: rest => if isSpaceChar c then afterSpacesIsParen rest else c == '('

/-- `re.search` of the method pattern
`\b<cls>(?:::|\.)<shrt>\s*\(` over the raw text. -/
def methodPatFound (cls shrt text : List Char) : Bool :=
  (List.range (text.length + 1)).any fun i =>
    boundaryAt text i && matchesAt cls text i &&
      ((matchesAt (':' :: ':' :: shrt) text (i + cls.length) &&
          afterSpacesIsParen (text.drop (i + cls.length + 2 + shrt.length))) ||
       (matchesAt ('.' :: shrt) text (i + cls.length) &&
          afterSpacesIsParen (text.drop (i + cls.length + 1 + shrt.length))))

/-- The `\s*(?:\*|\&)?\s*\w+` tail of the class pattern, anchored at the
start of `rest` (the space runs are maximal because `*`, `&` and word
characters are not spaces). -/
def classPatTail (rest : List Char) : Bool :=
  match rest.dropWhile isSpaceChar with
  | [] => false
  | c :: r2 =>
    if c == '*' || c == '&' then
      match r2.dropWhile isSpaceChar with
      | [] => false
      | d :: _ => isWordChar d
    else isWordChar c

/-- `re.search` of the class pattern `\b<shrt>\s*(?:\*|\&)?\s*\w+`. -/
def classPatFound (shrt text : List Char) : Bool :=
  (List.range (text.length + 1)).any fun i =>
    boundaryAt text i && matchesAt shrt text i &&
      classPatTail (text.drop (i + shrt.length))

/-- `re.search` of the enum pattern `\b<enm>::<shrt>\b`. -/
def enumPatFound (enm shrt text : List Char) : Bool :=
  wwSearch (enm ++ ':' :: ':' :: shrt) text

/-- The chars `a, ..., a + k - 1` of `text` exist and are all spaces
(a length-`k` piece of regex `\s`-repetition). -/
def spacesRun (text : List Char) (a k : Nat) : Bool :=
  decide (a + k ≤ text.length) && ((text.drop a).take k).all isSpaceChar

/-- The `\s*;.*\b<shrt>\b` tail (DOTALL) of the `using` pattern, anchored at
the start of `rest`: maximal space run, `;`, then a whole-word occurrence of
`shrt` anywhere later. -/
def semiTail (shrt : List Char) : List Char → Bool
  | [] => false
  | c :: rest =>
    if isSpaceChar c then semiTail shrt rest
    else c == ';' && wwSearch shrt rest

/-- The enum name and `\s*;.*\b<shrt>\b` tail, anchored at position `p`. -/
def usingEnumAt (enm shrt text : List Char) (p : Nat) : Bool :=
  matchesAt enm text p && semiTail shrt (text.drop (p + enm.length))

/-- `re.search` of the `using` pattern
`using\s+(?:namespace\s+)?<enm>\s*;.*\b<shrt>\b` with `re.DOTALL`. -/
def usingPatFound (enm shrt text : List Char) : Bool :=
  (List.range (text.length + 1)).any fun i =>
    matchesAt ['u', 's', 'i', 'n', 'g'] text i &&
    (List.range (text.length + 1)).any fun k =>
      decide (0 < k) && spacesRun text (i + 5) k &&
      (usingEnumAt enm shrt text (i + 5 + k) ||
       (matchesAt ['n', 'a', 'm', 'e', 's', 'p', 'a', 'c', 'e'] text (i + 5 + k) &&
        (List.range (text.length + 1)).any fun k2 =>
          decide (0 < k2) && spacesRun text (i + 5 + k + 9) k2 &&
          usingEnumAt enm shrt text (i + 5 + k + 9 + k2)))

/-- `len(re.findall(r"\b<pat>\b", text))`: count of non-overlapping
whole-word occurrences, scanning left to right. -/
def countWWGo (pat text : List Char) : Nat → Nat → Nat
  | 0, _ => 0
  | fuel + 1, i =>
    if text.length < i then 0
    else if wwMatchAt pat text i then
      1 + countWWGo pat text fuel (i + max pat.length 1)
    else countWWGo pat text fuel (i + 1)

/-- The fallback's `occurrences` count. -/
def countWW (pat text : List Char) : Nat :=
  countWWGo pat text (text.length + 1) 0

/-- The disambiguator: the sequence of `if`-blocks of
`_analyze_file_content` run after `match_found`, each of which can only
`add` and `continue`, so acceptance is their disjunction in order: scoped
method/function pattern, class/struct declaration shape, scoped enum
constant (literal or `using`), unqualified macro/function, and the rarity
fallback (`0 < occurrences < 5 and len(short_name) > 5`). -/
def disambiguate (kind : String) (qname text : List Char) : Bool :=
  let shrt := lastSeg qname
  ((kind == "CXX_METHOD" || kind == "FUNCTION_DECL") && hasScope qname &&
     methodPatFound (parentSeg qname) shrt text) ||
  ((kind == "CLASS_DECL" || kind == "STRUCT_DECL") && classPatFound shrt text) ||
  (kind == "ENUM_CONSTANT_DECL" && hasScope qname &&
     (enumPatFound (parentSeg qname) shrt text ||
      usingPatFound (parentSeg qname) shrt text)) ||
  ((kind == "MACRO_DEFINITION" || kind == "FUNCTION_DECL") && !hasScope qname) ||
  (decide (0 < countWW shrt text) && decide (countWW shrt text < 5) &&
     decide (5 < shrt.length))

/-! ### Per-file matcher and per-repository aggregator -/

/-- `api_symbols[symbol_name].kind` (candidates always come from the
catalog's keys, so the lookup cannot miss). -/
def lookupKind (catalog : Catalog) (qname : List Char) : Option String :=
  (catalog.find? (fun p => p.1.toList == qname)).map (fun p => p.2)

/-- The second pass for one candidate: the scanner must certify a
quote/comment-free occurrence of the short name and the disambiguator must
accept. -/
def secondPassAccept (catalog : Catalog) (text : List Char)
    (qname : List Char) : Bool :=
  match lookupKind catalog qname with
  | none => false
  | some kind => scanFound (lastSeg qname) text && disambiguate kind qname text

/-- `_analyze_file_content` on already-read content, with the prefilter
chunk size exposed (the code fixes `chunk_size = 100`).  The Python result
is a `set`; it is modelled as a duplicate-free list, whose order is
immaterial because each candidate is accepted or rejected independently. -/
def analyzeFileChunked (cs : Nat) (catalog : Catalog) (content : String) :
    List String :=
  let text := content.toList
  ((prefilterCandidates cs (catalogNames catalog) text).filter
      (secondPassAccept catalog text)).map String.mk

/-- `analyzeFile` — the per-file matcher with the code's chunk size. -/
def analyzeFile (catalog : Catalog) (content : String) : List String :=
  analyzeFileChunked 100 catalog content

/-- `_analyze_file_content` including the file read: a failed or undecodable
read (`none`) is caught locally, yields the empty result and logs a warning
(the Boolean component). -/
def analyzeFileChecked (catalog : Catalog) : Option String → List String × Bool
  | none => ([], true)
  | some content => (analyzeFile catalog content, false)

/-- `symbol_counts[symbol] += 1` on the `defaultdict(int)` tally, modelled
as an association list (missing keys count 0). -/
def bump (tally : List (String × Nat)) (s : String) : List (String × Nat) :=
  match tally with
  | [] => [(s, 1)]
  | (t, n) :: rest => if t == s then (t, n + 1) :: rest else (t, n) :: bump rest s

/-- Reading the tally of one symbol. -/
def tallyGet (tally : List (String × Nat)) (s : String) : Nat :=
  match tally.find? (fun p => p.1 == s) with
  | some p => p.2
  | none => 0

/-- `_analyze_plugin_repo`'s aggregation loop: fold every file's match
result into the repository tally, bumping each found symbol once per file
(file contents stand in for the files; a `none` entry is an unreadable
file). -/
def analyzeRepo (catalog : Catalog) (files : List (Option String)) :
    List (String × Nat) :=
  files.foldl
    (fun tally f => ((analyzeFileChecked catalog f).1).foldl bump tally) []

/-! ### Auxiliary vocabulary for the statements -/

/-- A nonempty identifier-like name: every character is a word character.
All real C/C++ short names have this shape; the chunking-invariance theorem
is stated under it. -/
def wordOnly (l : List Char) : Bool :=
  !l.isEmpty && l.all isWordChar

/-- `a` occurs as a contiguous substring of `b`. -/
def isSubstrOf (a b : List Char) : Bool :=
  (List.range (b.length + 1)).any (fun i => matchesAt a b i)

/-- The short names of each prefilter chunk, in the order they are
interpolated into that chunk's alternation pattern. -/
def chunkShortNames (catalog : Catalog) : List (List String) :=
  (chunksOf 100 (sortByLenDesc (catalogNames catalog))).map
    (fun c => c.map (fun n => String.mk (lastSeg n)))

/-- The property asserted by the spec for the prefilter's alternation order:
within every chunk, whenever one short name is a proper substring of
another, the longer one is listed strictly earlier. -/
def ShortsLongerFirst (catalog : Catalog) : Prop :=
  ∀ chunk ∈ chunkShortNames catalog, ∀ a ∈ chunk, ∀ b ∈ chunk,
    a.length < b.length → isSubstrOf a.toList b.toList = true →
      chunk.indexOf b < chunk.indexOf a

/-- Catalog refuting the short-name sort order: the qualified names sort as
`["VeryLongScope::Get", "A::GetValue"]` (by qualified-name length), so the
chunk's alternation lists the shorter short name `Get` first. -/
def c3Catalog : Catalog :=
  [("A::GetValue", "CXX_METHOD"), ("VeryLongScope::Get", "CXX_METHOD")]

/-- Ninety-nine filler symbols, long enough to sort between the two symbols
of `c2Catalog` that matter and absent from its file text. -/
def c2Fillers : Catalog :=
  (List.range 99).map (fun k => ("Fill" ++ toString k, "MACRO_DEFINITION"))

/-- A 101-symbol catalog refuting chunking invariance on the file text
`"a.b"`: the scoped symbol's short name `a.b` contains a non-word character,
and its whole-word match at position 0 makes the single-chunk alternation
scan consume the text before the short name `b` (sorted last, into the
second chunk of the chunked run) can match. -/
def c2Catalog : Catalog :=
  ("SomeLongNamespace::a.b", "CXX_METHOD") ::
    (c2Fillers ++ [("b", "MACRO_DEFINITION")])

/-! ## Lemmas about literal matching and word boundaries -/

theorem matchesAt_iff {pat text : List Char} {i : Nat} :
    matchesAt pat text i = true ↔ (text.drop i).take pat.length = pat := by
  simp [matchesAt]

theorem wwMatchAt_iff {pat text : List Char} {i : Nat} :
    wwMatchAt pat text i = true ↔
      matchesAt pat text i = true ∧ boundaryAt text i = true ∧
        boundaryAt text (i + pat.length) = true := by
  simp [wwMatchAt, Bool.and_eq_true, and_assoc]

theorem length_add_le_of_matchesAt {pat text : List Char} {i : Nat}
    (hne : pat ≠ []) (h : matchesAt pat text i = true) :
    i + pat.length ≤ text.length := by
  rw [matchesAt_iff] at h
  have h1 : ((text.drop i).take pat.length).length = pat.length := by rw [h]
  rw [List.length_take, List.length_drop] at h1
  have h2 : min pat.length (text.length - i) ≤ text.length - i :=
    Nat.min_le_right _ _
  rw [h1] at h2
  have hp : 0 < pat.length := List.length_pos.mpr hne
  omega

theorem drop_eq_of_matchesAt {pat text : List Char} {i : Nat}
    (h : matchesAt pat text i = true) :
    text.drop i = pat ++ text.drop (i + pat.length) := by
  rw [matchesAt_iff] at h
  conv_lhs => rw [← List.take_append_drop pat.length (text.drop i)]
  rw [h, List.drop_drop]

theorem charAtIsWord_of_matchesAt {pat text : List Char} {i k : Nat}
    (h : matchesAt pat text i = true) (hk : k < pat.length) :
    charAtIsWord text (i + k) = isWordChar pat[k] := by
  have h1 : text.drop (i + k) =
      pat[k] :: (pat.drop (k + 1) ++ text.drop (i + pat.length)) := by
    rw [← List.drop_drop k i, drop_eq_of_matchesAt h,
      List.drop_append_eq_append_drop, Nat.sub_eq_zero_of_le (Nat.le_of_lt hk),
      List.drop_zero, List.drop_eq_getElem_cons hk, List.cons_append]
  simp [charAtIsWord, h1]

theorem wordOnly_ne_nil {l : List Char} (h : wordOnly l = true) : l ≠ [] := by
  intro he
  subst he
  simp [wordOnly] at h

theorem wordOnly_length_pos {l : List Char} (h : wordOnly l = true) :
    0 < l.length :=
  List.length_pos.mpr (wordOnly_ne_nil h)

theorem wordOnly_get {l : List Char} (h : wordOnly l = true) {k : Nat}
    (hk : k < l.length) : isWordChar l[k] = true := by
  rw [wordOnly, Bool.and_eq_true, List.all_eq_true] at h
  exact h.2 _ (List.getElem_mem hk)

theorem wwMatchAt_eq_of_le {m n text : List Char} {i : Nat}
    (hm : wordOnly m = true) (hn : wordOnly n = true)
    (h1 : wwMatchAt m text i = true) (h2 : wwMatchAt n text i = true)
    (hle : m.length ≤ n.length) : m = n := by
  rcases wwMatchAt_iff.mp h1 with ⟨hm1, _, hb1⟩
  rcases wwMatchAt_iff.mp h2 with ⟨hn1, _, _⟩
  by_cases he : m.length = n.length
  · rw [matchesAt_iff] at hm1 hn1
    rw [← hm1, ← hn1, he]
  · exfalso
    have hlt : m.length < n.length := lt_of_le_of_ne hle he
    have hcur : charAtIsWord text (i + m.length) = true := by
      rw [charAtIsWord_of_matchesAt hn1 hlt]
      exact wordOnly_get hn hlt
    have hmpos : 0 < m.length := wordOnly_length_pos hm
    have hk : m.length - 1 < m.length := by omega
    have hprev : charAtIsWord text (i + m.length - 1) = true := by
      have hidx : i + m.length - 1 = i + (m.length - 1) := by omega
      rw [hidx, charAtIsWord_of_matchesAt hm1 hk]
      exact wordOnly_get hm hk
    have hnz : ¬(i + m.length = 0) := by omega
    rw [boundaryAt, if_neg hnz, hprev, hcur] at hb1
    simp at hb1

theorem wwMatchAt_sameStart {m n text : List Char} {i : Nat}
    (hm : wordOnly m = true) (hn : wordOnly n = true)
    (h1 : wwMatchAt m text i = true) (h2 : wwMatchAt n text i = true) :
    m = n := by
  rcases Nat.le_total m.length n.length with hle | hle
  · exact wwMatchAt_eq_of_le hm hn h1 h2 hle
  · exact (wwMatchAt_eq_of_le hn hm h2 h1 hle).symm

theorem wwMatchAt_no_overlap {m n text : List Char} {i j : Nat}
    (hm : wordOnly m = true) (hn : wordOnly n = true)
    (h1 : wwMatchAt m text i = true) (h2 : wwMatchAt n text j = true)
    (hij : i < j) (hji : j < i + m.length) : False := by
  rcases wwMatchAt_iff.mp h1 with ⟨hm1, _, _⟩
  rcases wwMatchAt_iff.mp h2 with ⟨hn1, hb2, _⟩
  have hnpos : 0 < n.length := wordOnly_length_pos hn
  have hcur : charAtIsWord text j = true := by
    have h0 := charAtIsWord_of_matchesAt hn1 hnpos
    rw [Nat.add_zero] at h0
    rw [h0]
    exact wordOnly_get hn hnpos
  have hk : j - 1 - i < m.length := by omega
  have hprev : charAtIsWord text (j - 1) = true := by
    have hidx : j - 1 = i + (j - 1 - i) := by omega
    rw [hidx, charAtIsWord_of_matchesAt hm1 hk]
    exact wordOnly_get hm hk
  have hnz : ¬(j = 0) := by omega
  rw [boundaryAt, if_neg hnz, hprev, hcur] at hb2
  simp at hb2

/-! ## Lemmas about `findallAlt`: for word-only names the matched-string set
is exactly the set of names with a whole-word occurrence -/

theorem wwMatchAt_pos_le {pat text : List Char} {j : Nat}
    (hne : pat ≠ []) (h : wwMatchAt pat text j = true) :
    j + pat.length ≤ text.length :=
  length_add_le_of_matchesAt hne (wwMatchAt_iff.mp h).1

theorem wwSearch_of_wwMatchAt {pat text : List Char} {j : Nat}
    (hne : pat ≠ []) (h : wwMatchAt pat text j = true) :
    wwSearch pat text = true := by
  rw [wwSearch, List.any_eq_true]
  refine ⟨j, List.mem_range.mpr ?_, h⟩
  have h1 := wwMatchAt_pos_le hne h
  have h2 := List.length_pos.mpr hne
  omega

theorem exists_wwMatchAt_of_wwSearch {pat text : List Char}
    (h : wwSearch pat text = true) : ∃ j, wwMatchAt pat text j = true := by
  rw [wwSearch, List.any_eq_true] at h
  rcases h with ⟨j, _, hj⟩
  exact ⟨j, hj⟩

theorem mem_names_of_mem_findallGo {names : List (List Char)} {text : List Char} :
    ∀ {fuel i : Nat} {n : List Char}, n ∈ findallGo names text fuel i →
      n ∈ names ∧ ∃ j, wwMatchAt n text j = true := by
  intro fuel
  induction fuel with
  | zero => intro i n h; simp [findallGo] at h
  | succ fuel ih =>
    intro i n h
    rw [findallGo] at h
    split at h
    · simp at h
    · cases hf : names.find? (fun x => wwMatchAt x text i) with
      | none => rw [hf] at h; exact ih h
      | some m =>
        rw [hf] at h
        rcases List.mem_cons.mp h with he | ht
        · subst he
          have hp := List.find?_some hf
          exact ⟨List.mem_of_find?_eq_some hf, i, hp⟩
        · exact ih ht

theorem mem_findallGo_of_wwMatchAt {names : List (List Char)} {text n : List Char}
    (hwo : ∀ x ∈ names, wordOnly x = true) (hn : n ∈ names) {j : Nat}
    (hj : wwMatchAt n text j = true) :
    ∀ fuel i, i ≤ j → text.length + 1 ≤ fuel + i →
      n ∈ findallGo names text fuel i := by
  have hwon : wordOnly n = true := hwo n hn
  have hjb : j + n.length ≤ text.length :=
    wwMatchAt_pos_le (wordOnly_ne_nil hwon) hj
  have hnpos : 0 < n.length := wordOnly_length_pos hwon
  intro fuel
  induction fuel with
  | zero => intro i hij hfl; exfalso; omega
  | succ fuel ih =>
    intro i hij hfl
    rw [findallGo]
    split
    · exfalso; omega
    · cases hf : names.find? (fun x => wwMatchAt x text i) with
      | some m =>
        have hmm : wwMatchAt m text i = true := by
          have hp := List.find?_some hf
          exact hp
        have hmem : m ∈ names := List.mem_of_find?_eq_some hf
        have hwom : wordOnly m = true := hwo m hmem
        have hmax : max m.length 1 = m.length :=
          Nat.max_eq_left (wordOnly_length_pos hwom)
        by_cases hcase : j < i + m.length
        · by_cases hji : i = j
          · subst hji
            have he : m = n := wwMatchAt_sameStart hwom hwon hmm hj
            subst he
            exact List.mem_cons_self _ _
          · exact (wwMatchAt_no_overlap hwom hwon hmm hj (by omega) hcase).elim
        · apply List.mem_cons_of_mem
          rw [hmax]
          exact ih (i + m.length) (by omega) (by omega)
      | none =>
        have hne : ¬ i = j := by
          intro he
          subst he
          exact absurd hj (List.find?_eq_none.mp hf n hn)
        exact ih (i + 1) (by omega) (by omega)

theorem mem_findallAlt_iff {names : List (List Char)} {text n : List Char}
    (hwo : ∀ x ∈ names, wordOnly x = true) :
    n ∈ findallAlt names text ↔ n ∈ names ∧ wwSearch n text = true := by
  constructor
  · intro h
    rcases mem_names_of_mem_findallGo h with ⟨hmem, j, hj⟩
    exact ⟨hmem, wwSearch_of_wwMatchAt (wordOnly_ne_nil (hwo n hmem)) hj⟩
  · rintro ⟨hmem, hs⟩
    rcases exists_wwMatchAt_of_wwSearch hs with ⟨j, hj⟩
    exact mem_findallGo_of_wwMatchAt hwo hmem hj (text.length + 1) 0
      (Nat.zero_le _) (by omega)

/-! ## Membership lemmas for the prefilter's candidate accumulation -/

theorem mem_addCandidate {acc : List (List Char)} {s x : List Char} :
    x ∈ addCandidate acc s ↔ x ∈ acc ∨ x = s := by
  rw [addCandidate]
  split
  · rename_i hmem
    constructor
    · exact fun h => Or.inl h
    · rintro (h | rfl)
      · exact h
      · exact hmem
  · simp [List.mem_append]

theorem mem_addMatchBack {chunk : List (List Char)} {m : List Char} :
    ∀ {acc : List (List Char)} {x : List Char}, x ∈ addMatchBack chunk m acc ↔
      x ∈ acc ∨ (x ∈ chunk ∧ lastSeg x = m) := by
  induction chunk with
  | nil => intro acc x; simp [addMatchBack]
  | cons s rest ih =>
    intro acc x
    have hstep : addMatchBack (s :: rest) m acc =
        addMatchBack rest m (if lastSeg s == m then addCandidate acc s else acc) :=
      rfl
    rw [hstep, ih]
    by_cases hc : (lastSeg s == m) = true
    · have hm : lastSeg s = m := beq_iff_eq.mp hc
      rw [if_pos hc, mem_addCandidate]
      simp only [List.mem_cons]
      constructor
      · rintro ((h | rfl) | ⟨hr, hl⟩)
        · exact Or.inl h
        · exact Or.inr ⟨Or.inl rfl, hm⟩
        · exact Or.inr ⟨Or.inr hr, hl⟩
      · rintro (h | ⟨rfl | hr, hl⟩)
        · exact Or.inl (Or.inl h)
        · exact Or.inl (Or.inr rfl)
        · exact Or.inr ⟨hr, hl⟩
    · have hm : ¬ lastSeg s = m := fun he => hc (beq_iff_eq.mpr he)
      rw [if_neg hc]
      simp only [List.mem_cons]
      constructor
      · rintro (h | ⟨hr, hl⟩)
        · exact Or.inl h
        · exact Or.inr ⟨Or.inr hr, hl⟩
      · rintro (h | ⟨rfl | hr, hl⟩)
        · exact Or.inl h
        · exact absurd hl hm
        · exact Or.inr ⟨hr, hl⟩

theorem mem_foldAddMatchBack {chunk : List (List Char)} :
    ∀ {ms acc : List (List Char)} {x : List Char},
      x ∈ ms.foldl (fun acc m => addMatchBack chunk m acc) acc ↔
        x ∈ acc ∨ ∃ m ∈ ms, x ∈ chunk ∧ lastSeg x = m := by
  intro ms
  induction ms with
  | nil => intro acc x; simp
  | cons m rest ih =>
    intro acc x
    rw [List.foldl_cons, ih, mem_addMatchBack]
    constructor
    · rintro ((h | ⟨hc, hl⟩) | ⟨m', hm', hc, hl⟩)
      · exact Or.inl h
      · exact Or.inr ⟨m, List.mem_cons_self _ _, hc, hl⟩
      · exact Or.inr ⟨m', List.mem_cons_of_mem _ hm', hc, hl⟩
    · rintro (h | ⟨m', hm', hc, hl⟩)
      · exact Or.inl (Or.inl h)
      · rcases List.mem_cons.mp hm' with rfl | hr
        · exact Or.inl (Or.inr ⟨hc, hl⟩)
        · exact Or.inr ⟨m', hr, hc, hl⟩

theorem mem_chunkCandidates_iff {chunk : List (List Char)} {text : List Char}
    {acc : List (List Char)} {x : List Char} (hwo : ∀ y ∈ chunk, wordOnly (lastSeg y) = true) :
    x ∈ chunkCandidates chunk text acc ↔
      x ∈ acc ∨ (x ∈ chunk ∧ wwSearch (lastSeg x) text = true) := by
  have hwo' : ∀ z ∈ chunk.map lastSeg, wordOnly z = true := by
    intro z hz
    rcases List.mem_map.mp hz with ⟨y, hy, rfl⟩
    exact hwo y hy
  rw [chunkCandidates, mem_foldAddMatchBack]
  constructor
  · rintro (h | ⟨m, hm, hc, hl⟩)
    · exact Or.inl h
    · subst hl
      rcases (mem_findallAlt_iff hwo').mp hm with ⟨_, hs⟩
      exact Or.inr ⟨hc, hs⟩
  · rintro (h | ⟨hc, hs⟩)
    · exact Or.inl h
    · refine Or.inr ⟨lastSeg x, ?_, hc, rfl⟩
      exact (mem_findallAlt_iff hwo').mpr ⟨List.mem_map_of_mem _ hc, hs⟩

theorem mem_foldChunkCandidates {text : List Char} :
    ∀ {chunks : List (List (List Char))} {acc : List (List Char)} {x : List Char},
      (∀ c ∈ chunks, ∀ y ∈ c, wordOnly (lastSeg y) = true) →
      (x ∈ chunks.foldl (fun acc c => chunkCandidates c text acc) acc ↔
        x ∈ acc ∨ ∃ c ∈ chunks, x ∈ c ∧ wwSearch (lastSeg x) text = true) := by
  intro chunks
  induction chunks with
  | nil => intro acc x _; simp
  | cons c cs ih =>
    intro acc x hwo
    rw [List.foldl_cons,
      ih (fun c' hc' => hwo c' (List.mem_cons_of_mem _ hc')),
      mem_chunkCandidates_iff (hwo c (List.mem_cons_self _ _))]
    constructor
    · rintro ((h | ⟨hc, hs⟩) | ⟨c', hc', hx, hs⟩)
      · exact Or.inl h
      · exact Or.inr ⟨c, List.mem_cons_self _ _, hc, hs⟩
      · exact Or.inr ⟨c', List.mem_cons_of_mem _ hc', hx, hs⟩
    · rintro (h | ⟨c', hc', hx, hs⟩)
      · exact Or.inl (Or.inl h)
      · rcases List.mem_cons.mp hc' with rfl | hr
        · exact Or.inl (Or.inr ⟨hx, hs⟩)
        · exact Or.inr ⟨c', hr, hx, hs⟩

theorem mem_acc_or_chunk_of_mem_fold {text : List Char} :
    ∀ {chunks : List (List (List Char))} {acc : List (List Char)} {x : List Char},
      x ∈ chunks.foldl (fun acc c => chunkCandidates c text acc) acc →
        x ∈ acc ∨ ∃ c ∈ chunks, x ∈ c := by
  intro chunks
  induction chunks with
  | nil => intro acc x h; exact Or.inl h
  | cons c cs ih =>
    intro acc x h
    rw [List.foldl_cons] at h
    rcases ih h with h1 | ⟨c', hc', hx⟩
    · rw [chunkCandidates, mem_foldAddMatchBack] at h1
      rcases h1 with h2 | ⟨m, _, hx, _⟩
      · exact Or.inl h2
      · exact Or.inr ⟨c, List.mem_cons_self _ _, hx⟩
    · exact Or.inr ⟨c', List.mem_cons_of_mem _ hc', hx⟩

/-! ## Lemmas about sorting and chunking -/

theorem sortByLenDesc_cons (a : List Char) (l : List (List Char)) :
    sortByLenDesc (a :: l) = insertByLen a (sortByLenDesc l) := rfl

theorem mem_insertByLen {s x : List Char} :
    ∀ {l : List (List Char)}, x ∈ insertByLen s l ↔ x = s ∨ x ∈ l := by
  intro l
  induction l with
  | nil => simp [insertByLen]
  | cons t ts ih =>
    rw [insertByLen]
    split
    · simp [List.mem_cons]
    · rw [List.mem_cons, ih]
      simp only [List.mem_cons]
      tauto

theorem mem_sortByLenDesc {x : List Char} :
    ∀ {l : List (List Char)}, x ∈ sortByLenDesc l ↔ x ∈ l := by
  intro l
  induction l with
  | nil => simp [sortByLenDesc]
  | cons a as ih =>
    rw [sortByLenDesc_cons, mem_insertByLen, ih, List.mem_cons]

theorem pairwise_insertByLen {s : List Char} :
    ∀ {l : List (List Char)},
      l.Pairwise (fun a b => b.length ≤ a.length) →
      (insertByLen s l).Pairwise (fun a b => b.length ≤ a.length) := by
  intro l
  induction l with
  | nil => intro _; simp [insertByLen]
  | cons t ts ih =>
    intro h
    rcases List.pairwise_cons.mp h with ⟨ht, hts⟩
    rw [insertByLen]
    split
    · rename_i hle
      rw [List.pairwise_cons]
      refine ⟨?_, h⟩
      intro b hb
      rcases List.mem_cons.mp hb with rfl | hbts
      · exact hle
      · exact le_trans (ht b hbts) hle
    · rename_i hgt
      rw [List.pairwise_cons]
      refine ⟨?_, ih hts⟩
      intro b hb
      rcases mem_insertByLen.mp hb with rfl | hbts
      · omega
      · exact ht b hbts

theorem pairwise_sortByLenDesc (l : List (List Char)) :
    (sortByLenDesc l).Pairwise (fun a b => b.length ≤ a.length) := by
  induction l with
  | nil => simp [sortByLenDesc]
  | cons a as ih => rw [sortByLenDesc_cons]; exact pairwise_insertByLen ih

theorem sublist_of_mem_chunksOfGo {cs : Nat} :
    ∀ {fuel : Nat} {l : List (List Char)} {c : List (List Char)},
      c ∈ chunksOfGo cs fuel l → c.Sublist l := by
  intro fuel
  induction fuel with
  | zero =>
    intro l c h
    cases l with
    | nil => simp [chunksOfGo] at h
    | cons a as => simp [chunksOfGo] at h
  | succ fuel ih =>
    intro l c h
    cases l with
    | nil => simp [chunksOfGo] at h
    | cons a as =>
      rw [chunksOfGo] at h
      rcases List.mem_cons.mp h with rfl | ht
      · exact List.take_sublist _ _
      · exact (ih ht).trans (List.drop_sublist _ _)

theorem exists_chunk_of_mem_chunksOfGo {cs : Nat} (hcs : 0 < cs) :
    ∀ {fuel : Nat} {l : List (List Char)} {x : List Char},
      l.length ≤ fuel → x ∈ l → ∃ c ∈ chunksOfGo cs fuel l, x ∈ c := by
  intro fuel
  induction fuel with
  | zero =>
    intro l x hl hx
    have he : l = [] := List.length_eq_zero.mp (Nat.le_zero.mp hl)
    subst he
    simp at hx
  | succ fuel ih =>
    intro l x hl hx
    cases l with
    | nil => simp at hx
    | cons a as =>
      rw [chunksOfGo]
      rw [← List.take_append_drop cs (a :: as)] at hx
      rcases List.mem_append.mp hx with h1 | h2
      · exact ⟨_, List.mem_cons_self _ _, h1⟩
      · have hlen : ((a :: as).drop cs).length ≤ fuel := by
          rw [List.length_drop]
          simp only [List.length_cons] at hl ⊢
          omega
        rcases ih hlen h2 with ⟨c, hc, hxc⟩
        exact ⟨c, List.mem_cons_of_mem _ hc, hxc⟩

/-! ## Characterization and containment of the prefilter's candidate set -/

theorem mem_prefilterCandidates_iff {cs : Nat} {names : List (List Char)}
    {text x : List Char} (hcs : 0 < cs)
    (hwo : ∀ y ∈ names, wordOnly (lastSeg y) = true) :
    x ∈ prefilterCandidates cs names text ↔
      x ∈ names ∧ wwSearch (lastSeg x) text = true := by
  have hchunks : ∀ c ∈ chunksOf cs (sortByLenDesc names),
      ∀ y ∈ c, wordOnly (lastSeg y) = true := by
    intro c hc y hy
    exact hwo y (mem_sortByLenDesc.mp
      ((sublist_of_mem_chunksOfGo hc).mem hy))
  rw [prefilterCandidates, mem_foldChunkCandidates hchunks]
  constructor
  · rintro (h | ⟨c, hc, hx, hs⟩)
    · simp at h
    · exact ⟨mem_sortByLenDesc.mp ((sublist_of_mem_chunksOfGo hc).mem hx), hs⟩
  · rintro ⟨hmem, hs⟩
    have hx : x ∈ sortByLenDesc names := mem_sortByLenDesc.mpr hmem
    rcases exists_chunk_of_mem_chunksOfGo hcs (le_refl _) hx with ⟨c, hc, hxc⟩
    exact Or.inr ⟨c, hc, hxc, hs⟩

theorem mem_names_of_mem_prefilterCandidates {cs : Nat}
    {names : List (List Char)} {text x : List Char}
    (h : x ∈ prefilterCandidates cs names text) : x ∈ names := by
  rw [prefilterCandidates] at h
  rcases mem_acc_or_chunk_of_mem_fold h with h1 | ⟨c, hc, hx⟩
  · simp at h1
  · exact mem_sortByLenDesc.mp ((sublist_of_mem_chunksOfGo hc).mem hx)

/-! ## The candidate list is duplicate-free (the Python `set`) -/

theorem nodup_addCandidate {acc : List (List Char)} {s : List Char}
    (h : acc.Nodup) : (addCandidate acc s).Nodup := by
  rw [addCandidate]
  split
  · exact h
  · rename_i hnm
    rw [List.nodup_append]
    exact ⟨h, List.nodup_singleton s,
      fun a ha hs => hnm (by rcases List.mem_singleton.mp hs with rfl; exact ha)⟩

theorem nodup_addMatchBack {m : List Char} :
    ∀ {chunk acc : List (List Char)}, acc.Nodup →
      (addMatchBack chunk m acc).Nodup := by
  intro chunk
  induction chunk with
  | nil => intro acc h; exact h
  | cons s rest ih =>
    intro acc h
    have hstep : addMatchBack (s :: rest) m acc =
        addMatchBack rest m (if lastSeg s == m then addCandidate acc s else acc) :=
      rfl
    rw [hstep]
    apply ih
    split
    · exact nodup_addCandidate h
    · exact h

theorem nodup_foldAddMatchBack :
    ∀ (ms : List (List Char)) {chunk acc : List (List Char)}, acc.Nodup →
      (ms.foldl (fun acc m => addMatchBack chunk m acc) acc).Nodup := by
  intro ms
  induction ms with
  | nil => intro chunk acc h; exact h
  | cons m rest ih =>
    intro chunk acc h
    rw [List.foldl_cons]
    exact ih (nodup_addMatchBack h)

theorem nodup_chunkCandidates {chunk : List (List Char)} {text : List Char}
    {acc : List (List Char)} (h : acc.Nodup) :
    (chunkCandidates chunk text acc).Nodup :=
  nodup_foldAddMatchBack _ h

theorem nodup_prefilterCandidates {cs : Nat} {names : List (List Char)}
    {text : List Char} : (prefilterCandidates cs names text).Nodup := by
  rw [prefilterCandidates]
  generalize chunksOf cs (sortByLenDesc names) = chunks
  have haux : ∀ (cl : List (List (List Char))) (acc : List (List Char)),
      acc.Nodup → (cl.foldl (fun acc c => chunkCandidates c text acc) acc).Nodup := by
    intro cl
    induction cl with
    | nil => intro acc h; exact h
    | cons c rest ih =>
      intro acc h
      rw [List.foldl_cons]
      exact ih _ (nodup_chunkCandidates h)
  exact haux chunks [] List.nodup_nil

theorem string_mk_injective : Function.Injective String.mk := by
  intro a b h
  injection h

theorem nodup_analyzeFileChunked {cs : Nat} {catalog : Catalog}
    {content : String} : (analyzeFileChunked cs catalog content).Nodup :=
  ((nodup_prefilterCandidates.filter _).map string_mk_injective)

/-! ## Membership in the per-file result -/

theorem mem_analyzeFileChunked_iff {cs : Nat} {catalog : Catalog}
    {content : String} {s : String} (hcs : 0 < cs)
    (hwo : ∀ y ∈ catalogNames catalog, wordOnly (lastSeg y) = true) :
    s ∈ analyzeFileChunked cs catalog content ↔
      ∃ l, l ∈ catalogNames catalog ∧
        wwSearch (lastSeg l) content.toList = true ∧
        secondPassAccept catalog content.toList l = true ∧ String.mk l = s := by
  rw [analyzeFileChunked, List.mem_map]
  constructor
  · rintro ⟨l, hl, rfl⟩
    rcases List.mem_filter.mp hl with ⟨hcand, hsp⟩
    rcases (mem_prefilterCandidates_iff hcs hwo).mp hcand with ⟨hmem, hs⟩
    exact ⟨l, hmem, hs, hsp, rfl⟩
  · rintro ⟨l, hmem, hs, hsp, rfl⟩
    exact ⟨l, List.mem_filter.mpr
      ⟨(mem_prefilterCandidates_iff hcs hwo).mpr ⟨hmem, hs⟩, hsp⟩, rfl⟩

/-! ## Tally lemmas for the per-repository aggregator -/

theorem tallyGet_nil (s : String) : tallyGet [] s = 0 := rfl

theorem tallyGet_cons (a : String) (n : Nat) (rest : List (String × Nat))
    (s : String) :
    tallyGet ((a, n) :: rest) s = if a = s then n else tallyGet rest s := by
  by_cases he : a = s
  · rw [tallyGet, List.find?_cons_of_pos _ (by simpa using he), if_pos he]
  · rw [tallyGet, List.find?_cons_of_neg _ (by simpa using he), if_neg he,
      tallyGet]

theorem tallyGet_bump (t : List (String × Nat)) (x s : String) :
    tallyGet (bump t x) s = if x = s then tallyGet t s + 1 else tallyGet t s := by
  induction t with
  | nil =>
    rw [bump, tallyGet_cons, tallyGet_nil]
  | cons p rest ih =>
    rcases p with ⟨a, n⟩
    rw [bump]
    by_cases hax : a = x
    · subst hax
      rw [if_pos (beq_iff_eq.mpr rfl)]
      simp only [tallyGet_cons]
      by_cases has : a = s
      · simp only [if_pos has]
      · simp only [if_neg has]
    · rw [if_neg (fun h => hax (beq_iff_eq.mp h))]
      simp only [tallyGet_cons]
      by_cases has : a = s
      · have hxs : ¬ x = s := fun h => hax (has.trans h.symm)
        simp only [if_pos has, if_neg hxs]
      · simp only [if_neg has]
        exact ih

theorem tallyGet_foldl_bump (l : List String) :
    ∀ (t : List (String × Nat)) (s : String),
      tallyGet (l.foldl bump t) s = tallyGet t s + l.count s := by
  induction l with
  | nil => intro t s; simp
  | cons x rest ih =>
    intro t s
    rw [List.foldl_cons, ih, tallyGet_bump, List.count_cons]
    by_cases he : x = s
    · rw [if_pos he, if_pos (beq_iff_eq.mpr he)]
      omega
    · rw [if_neg he, if_neg (by simpa using he)]
      omega

theorem count_eq_ite_of_nodup {l : List String} {s : String} (h : l.Nodup) :
    l.count s = if s ∈ l then 1 else 0 := by
  by_cases hm : s ∈ l
  · rw [if_pos hm]
    exact List.count_eq_one_of_mem h hm
  · rw [if_neg hm]
    exact List.count_eq_zero_of_not_mem hm

theorem nodup_analyzeFileChecked (catalog : Catalog) (f : Option String) :
    ((analyzeFileChecked catalog f).1).Nodup := by
  cases f with
  | none => exact List.nodup_nil
  | some c => exact nodup_analyzeFileChunked

theorem tallyGet_analyzeRepo (catalog : Catalog) (files : List (Option String))
    (s : String) :
    tallyGet (analyzeRepo catalog files) s =
      (files.filter
        (fun f => decide (s ∈ (analyzeFileChecked catalog f).1))).length := by
  have haux : ∀ (fl : List (Option String)) (t : List (String × Nat)),
      tallyGet (fl.foldl
          (fun tally f => ((analyzeFileChecked catalog f).1).foldl bump tally) t) s =
        tallyGet t s +
          (fl.filter
            (fun f => decide (s ∈ (analyzeFileChecked catalog f).1))).length := by
    intro fl
    induction fl with
    | nil => intro t; simp
    | cons f rest ih =>
      intro t
      rw [List.foldl_cons, ih, tallyGet_foldl_bump,
        count_eq_ite_of_nodup (nodup_analyzeFileChecked catalog f),
        List.filter_cons]
      by_cases hm : s ∈ (analyzeFileChecked catalog f).1
      · rw [if_pos hm, if_pos (by simpa using hm), List.length_cons]
        omega
      · rw [if_neg hm, if_neg (by simpa using hm)]
        omega
  rw [analyzeRepo, haux files [], tallyGet_nil]
  omega

theorem string_mk_toList (s : String) : String.mk s.toList = s := rfl

/-! ## Claim theorems -/

/-- C1 counterexample: for the catalog symbol `Ship::Navigate` of kind
`CXX_METHOD` and the file text `Navigate(x);`, the scanner certifies the
occurrence and the disambiguator accepts (end to end, the file's result
contains the symbol), yet the structural `Parent::short(`/`Parent.short(`
condition is false — the rarity fallback (1 occurrence, short name of
length 8 > 5) fires, refuting the claimed "this condition and no other". -/
theorem scoped_method_structural_only_counterexample :
    scanFound (lastSeg "Ship::Navigate".toList) "Navigate(x);".toList = true ∧
    methodPatFound (parentSeg "Ship::Navigate".toList)
      (lastSeg "Ship::Navigate".toList) "Navigate(x);".toList = false ∧
    disambiguate "CXX_METHOD" "Ship::Navigate".toList "Navigate(x);".toList
      = true ∧
    "Ship::Navigate" ∈
      analyzeFile [("Ship::Navigate", "CXX_METHOD")] "Navigate(x);" := by
  decide

/-- C1 (amended): for a Method/Function symbol with a scope separator whose
scanner check certified an occurrence, the disambiguator accepts iff the raw
text contains `Parent::short(`/`Parent.short(` (whitespace-tolerant before
`(`) OR the rarity fallback fires: the whole-word occurrence count of the
short name in the raw text is between 1 and 4 and the short name is longer
than 5 characters. -/
theorem scoped_method_acceptance (kind : String) (qname text : List Char)
    (hk : kind = "CXX_METHOD" ∨ kind = "FUNCTION_DECL")
    (hs : hasScope qname = true)
    (hscan : scanFound (lastSeg qname) text = true) :
    disambiguate kind qname text = true ↔
      (methodPatFound (parentSeg qname) (lastSeg qname) text = true ∨
        (0 < countWW (lastSeg qname) text ∧ countWW (lastSeg qname) text < 5 ∧
          5 < (lastSeg qname).length)) := by
  rcases hk with rfl | rfl <;>
    simp [disambiguate, hs, Bool.or_eq_true, Bool.and_eq_true,
      decide_eq_true_eq, and_assoc]

/-- C1 witness: the amended equivalence at the spec's own example
(`Ship::Turn` in `Ship::Turn();`), where the structural pattern holds. -/
theorem scoped_method_acceptance_witness :
    disambiguate "CXX_METHOD" "Ship::Turn".toList "Ship::Turn();".toList
        = true ↔
      (methodPatFound (parentSeg "Ship::Turn".toList)
          (lastSeg "Ship::Turn".toList) "Ship::Turn();".toList = true ∨
        (0 < countWW (lastSeg "Ship::Turn".toList) "Ship::Turn();".toList ∧
          countWW (lastSeg "Ship::Turn".toList) "Ship::Turn();".toList < 5 ∧
          5 < (lastSeg "Ship::Turn".toList).length)) :=
  scoped_method_acceptance "CXX_METHOD" "Ship::Turn".toList
    "Ship::Turn();".toList (Or.inl rfl) (by decide) (by decide)

/-- C2 counterexample: on the 101-symbol catalog `c2Catalog` and the file
text `a.b`, chunks of 100 accept `{"b"}` while a single chunk accepts
nothing — prefilter chunking changes the result when a short name contains
a non-word character. -/
theorem chunking_invariance_counterexample :
    analyzeFileChunked 100 c2Catalog "a.b" = ["b"] ∧
    analyzeFileChunked 101 c2Catalog "a.b" = [] := by
  decide

/-- C2 (amended): for every catalog whose short names are nonempty and
consist only of word characters (every real C/C++ identifier), the final
per-file result set is independent of the prefilter chunk size. -/
theorem chunking_invariance (cs₁ cs₂ : Nat) (catalog : Catalog)
    (content : String) (s : String) (h1 : 0 < cs₁) (h2 : 0 < cs₂)
    (hwo : ∀ y ∈ catalogNames catalog, wordOnly (lastSeg y) = true) :
    (s ∈ analyzeFileChunked cs₁ catalog content ↔
      s ∈ analyzeFileChunked cs₂ catalog content) := by
  rw [mem_analyzeFileChunked_iff h1 hwo, mem_analyzeFileChunked_iff h2 hwo]

/-- C2 witness: the amended invariance at chunk sizes 100 and 1 on a
one-macro catalog. -/
theorem chunking_invariance_witness :
    ("Foo" ∈ analyzeFileChunked 100 [("Foo", "MACRO_DEFINITION")] "Foo();" ↔
      "Foo" ∈ analyzeFileChunked 1 [("Foo", "MACRO_DEFINITION")] "Foo();") :=
  chunking_invariance 100 1 [("Foo", "MACRO_DEFINITION")] "Foo();" "Foo"
    (by decide) (by decide) (by decide)

/-- C3 counterexample: the code sorts the qualified names by length, not
the short names; on `c3Catalog` the single chunk's alternation is
`["Get", "GetValue"]`, listing the shorter short name first even though it
is a proper substring of the longer one — `ShortsLongerFirst` fails. -/
theorem prefilter_sort_counterexample :
    chunkShortNames c3Catalog = [["Get", "GetValue"]] ∧
    isSubstrOf "Get".toList "GetValue".toList = true ∧
    ¬ ShortsLongerFirst c3Catalog := by
  refine ⟨by decide, by decide, ?_⟩
  unfold ShortsLongerFirst
  decide

/-- C3 (amended): before chunking, the prefilter sorts the qualified names
by length in descending order (stably), so within every chunk the
qualified-name lengths are non-increasing; no ordering guarantee on the
short names themselves follows. -/
theorem prefilter_chunk_sorted (catalog : Catalog) (chunk : List (List Char))
    (h : chunk ∈ chunksOf 100 (sortByLenDesc (catalogNames catalog))) :
    chunk.Pairwise (fun a b => b.length ≤ a.length) :=
  List.Pairwise.sublist (sublist_of_mem_chunksOfGo h)
    (pairwise_sortByLenDesc _)

/-- C3 witness: the sorted-by-qualified-length chunk of `c3Catalog`. -/
theorem prefilter_chunk_sorted_witness :
    List.Pairwise (fun a b : List Char => b.length ≤ a.length)
      ["VeryLongScope::Get".toList, "A::GetValue".toList] :=
  prefilter_chunk_sorted c3Catalog
    ["VeryLongScope::Get".toList, "A::GetValue".toList] (by decide)

/-- C4: with catalog `{Foo: Macro}`, the text `log("Foo called");` yields
the empty set (the only whole-word `Foo` lies inside the stripped quoted
span), while `Foo();` yields `{"Foo"}` (an unqualified macro is accepted as
soon as a whole-word occurrence outside comments/quotes exists). -/
theorem quote_exclusion_macro :
    analyzeFile [("Foo", "MACRO_DEFINITION")] "log(\"Foo called\");" = [] ∧
    analyzeFile [("Foo", "MACRO_DEFINITION")] "Foo();" = ["Foo"] := by
  decide

/-- C5: with catalog `{Foo: Macro}`, the two-line text
`// Foo is great` + `int x=1;` yields the empty set: a line whose trimmed
text starts with `//` is skipped entirely by the scanner. -/
theorem comment_exclusion_macro :
    analyzeFile [("Foo", "MACRO_DEFINITION")] "// Foo is great\nint x=1;"
      = [] := by
  decide

/-- C6: with catalog `{"Season::SUMMER": EnumConstant}`, the text
`using namespace Season;` + `if (s == SUMMER) {}` yields
`{"Season::SUMMER"}`: the `using`-statement rule accepts across line
boundaries even though `Season::SUMMER` never appears literally. -/
theorem enum_using_resolution :
    analyzeFile [("Season::SUMMER", "ENUM_CONSTANT_DECL")]
      "using namespace Season;\nif (s == SUMMER) {}"
      = ["Season::SUMMER"] := by
  decide

/-- C7: the aggregator maps each symbol to the number of files whose
match result contains it — one bump per file regardless of occurrence
count; in particular two files each holding two occurrences of the macro
`Foo` tally to 2, not 4. -/
theorem aggregator_counts_files (catalog : Catalog)
    (files : List (Option String)) (s : String) :
    tallyGet (analyzeRepo catalog files) s =
      (files.filter
        (fun f => decide (s ∈ (analyzeFileChecked catalog f).1))).length ∧
    tallyGet (analyzeRepo [("Foo", "MACRO_DEFINITION")]
      [some "Foo(); Foo();", some "Foo(); Foo();"]) "Foo" = 2 :=
  ⟨tallyGet_analyzeRepo catalog files s, by decide⟩

/-- C8: an unreadable file is recovered locally — the per-file matcher
returns the empty result and the warning flag instead of propagating the
failure, and inserting an unreadable file anywhere in a repository's file
list leaves the repository tally unchanged. -/
theorem unreadable_file_recovery :
    (∀ catalog : Catalog, analyzeFileChecked catalog none = ([], true)) ∧
    (∀ (catalog : Catalog) (pre post : List (Option String)),
      analyzeRepo catalog (pre ++ none :: post)
        = analyzeRepo catalog (pre ++ post)) := by
  constructor
  · intro catalog
    rfl
  · intro catalog pre post
    rw [analyzeRepo, analyzeRepo, List.foldl_append, List.foldl_append,
      List.foldl_cons]
    rfl

/-- C9: `analyzeFile` is deterministic — two runs on identical catalog and
file text return identical result sets. -/
theorem analyzeFile_deterministic (catalog : Catalog) (c₁ c₂ : String)
    (h : c₁ = c₂) : analyzeFile catalog c₁ = analyzeFile catalog c₂ := by
  rw [h]

/-- C9 witness: determinism at a concrete catalog and file text. -/
theorem analyzeFile_deterministic_witness :
    analyzeFile [("Foo", "MACRO_DEFINITION")] "Foo();"
      = analyzeFile [("Foo", "MACRO_DEFINITION")] "Foo();" :=
  analyzeFile_deterministic [("Foo", "MACRO_DEFINITION")] "Foo();" "Foo();" rfl

/-- C10: every name in a per-file result is a key of the supplied catalog
(the matcher never invents or rewrites a name), and the empty catalog gives
the empty result on every file. -/
theorem result_subset_catalog (catalog : Catalog) (content : String) :
    (∀ s, s ∈ analyzeFile catalog content → s ∈ catalog.map Prod.fst) ∧
    analyzeFile [] content = [] := by
  constructor
  · intro s hs
    rw [analyzeFile, analyzeFileChunked, List.mem_map] at hs
    rcases hs with ⟨l, hl, rfl⟩
    rcases List.mem_filter.mp hl with ⟨hcand, _⟩
    have hn := mem_names_of_mem_prefilterCandidates hcand
    rw [catalogNames] at hn
    rcases List.mem_map.mp hn with ⟨p, hp, rfl⟩
    rw [string_mk_toList]
    exact List.mem_map_of_mem _ hp
  · rfl

/-- C10 witness: containment at a concrete accepted symbol. -/
theorem result_subset_catalog_witness :
    "Foo" ∈ ([("Foo", "MACRO_DEFINITION")] : Catalog).map Prod.fst :=
  (result_subset_catalog [("Foo", "MACRO_DEFINITION")] "Foo();").1 "Foo"
    (by decide)

end OcpnAnalyzer
